import Mathlib

/-!
Shallow embedding of `calculate-results.go` from tuohis/1brc-go.

Byte strings are modelled as `List Nat` (one entry per byte).  Go's
`int`/`int64` arithmetic in `calculateHash` wraps at 2^64; the hash is
therefore modelled as a `Nat` reduced `% 2^64` at every step, which is
exactly the bit pattern of the Go value and hence decides Go map-key
equality.  `Measurement` (Go `type Measurement int64`) is modelled as
`Int`, and the operations the Go code performs in `int64` arithmetic
that can overflow on claim-relevant inputs — the parser's digit
accumulator and the running `sum += value` — are wrapped through
`wrap64`, the two's-complement reduction into `[-2^63, 2^63)`, so the
model wraps exactly where the program does.  Go code that can go out
of bounds is modelled with `Option` (`none` is the out-of-bounds
failure); Go code returning `(T, error)` is modelled with
`Except String T`.
-/

namespace OneBRC

/-- Measurement is a fixed precision decimal with 0.1 accuracy
(Go: `type Measurement int64`). -/
abbrev Measurement := Int

/-- The two's-complement reduction of a Go `int64` operation result:
`wrap64 x` is the unique value in `[-2^63, 2^63)` congruent to `x`
modulo `2^64` — exactly the value a wrapping Go `int64` computation
holds. -/
def wrap64 (x : Int) : Int := (x + 2 ^ 63) % 2 ^ 64 - 2 ^ 63

/-- Go `func (m Measurement) toFloat() float64 { return float64(m) / 10 }`,
modelled exactly as the rational `m / 10`.  For `|m| ≤ 2^52` both the
conversion `float64(m)` and the division by 10 are exact at one-decimal
precision, so the rational model agrees with the float on every value
the program can produce. -/
def Measurement.toFloat (m : Measurement) : ℚ := (m : ℚ) / 10

/-- Go `func parseMeasurement(byteStr []byte) Measurement`.
The Go code reads `byteStr[0]` unconditionally; on an empty slice that
indexing is out of bounds, modelled here by `none`.  Otherwise it scans
every byte, accumulating `intValue*10 + int64(b - zeroCode)` for digit
bytes and ignoring all others (`-` and `.` in particular), then applies
the sign taken from the first byte.  The accumulator and the final
product are Go `int64` operations, so every step is reduced through
`wrap64`: on inputs with enough digits the value wraps exactly as the
program's does. -/
def parseMeasurement (byteStr : List Nat) : Option Measurement :=
  match byteStr with
  | [] => none
  | b0 :: _ =>
    let multiplier : Int := if b0 = 45 then -1 else 1
    let intValue : Int :=
      byteStr.foldl
        (fun v (b : Nat) =>
          if 48 ≤ b ∧ b ≤ 57 then wrap64 (v * 10 + ((b : Int) - 48)) else v) 0
    some (wrap64 (multiplier * intValue))

/-- Go `func min(a, b Measurement) Measurement` (the source defines its own). -/
def mmin (a b : Measurement) : Measurement := if a < b then a else b

/-- Go `func max(a, b Measurement) Measurement` (the source defines its own). -/
def mmax (a b : Measurement) : Measurement := if a < b then b else a

/-- Go `type Location struct { name []byte; hash int; min, max, sum Measurement; count int }`.
The `hash` field stores the 64-bit pattern of the Go `int`. -/
structure Location where
  name : List Nat
  hash : Nat
  min : Measurement
  max : Measurement
  sum : Measurement
  count : Nat
deriving DecidableEq, Repr

/-- Go `func (a *Location) merge(b *Location) *Location`: keeps `a`'s
name and hash, combines the numeric fields.  The sum is left as plain
`Int` addition: the int64 wrap is immaterial to the merge algebra,
since wrapping addition is equally associative and commutative. -/
def Location.merge (a b : Location) : Location :=
  ⟨a.name, a.hash, mmin a.min b.min, mmax a.max b.max, a.sum + b.sum, a.count + b.count⟩

/-- Go `func (loc *Location) append(m Measurement)` (returning the
updated record instead of mutating in place).  `loc.sum += m` is a Go
`int64` addition, so the new sum is reduced through `wrap64`. -/
def Location.append (loc : Location) (m : Measurement) : Location :=
  ⟨loc.name, loc.hash, mmin loc.min m, mmax loc.max m, wrap64 (loc.sum + m),
    loc.count + 1⟩

/-- Go `type LocationMap map[int]*Location`, modelled as a function from
the 64-bit key pattern to an optional entry (Go maps are unordered). -/
def LocationMap := Nat → Option Location

/-- The empty map (`make(LocationMap, INITIAL_MAP_SIZE)`). -/
def emptyLocationMap : LocationMap := fun _ => none

/-- Go `m[key] = loc` on a `LocationMap`. -/
def LocationMap.update (m : LocationMap) (key : Nat) (loc : Location) : LocationMap :=
  fun k => if k = key then some loc else m k

/-- Go `func (a LocationMap) merge(b LocationMap) LocationMap`: every
entry of `b` is merged into (or inserted into) `a`. -/
def LocationMap.merge (a b : LocationMap) : LocationMap :=
  fun k =>
    match a k, b k with
    | some al, some bl => some (al.merge bl)
    | some al, none => some al
    | none, bl => bl

/-- Go `func calculateHash(bytes []byte) int`: FNV-1a with 32-bit
constants evaluated in Go `int` (64-bit two's-complement) arithmetic;
the `% 2^64` keeps the exact bit pattern of the wrapping product. -/
def calculateHash (bytes : List Nat) : Nat :=
  bytes.foldl (fun h b => ((h ^^^ b) * 0x01000193) % (2 ^ 64)) 0x811c9dc5

/-- Go `bytes.Cut(line, []byte{';'})`: split at the first `;` byte;
`none` when no separator is found. -/
def cutSemi (line : List Nat) : Option (List Nat × List Nat) :=
  match line with
  | [] => none
  | b :: rest =>
    if b = 59 then some ([], rest)
    else (cutSemi rest).map (fun p => (b :: p.1, p.2))

/-- The tail of Go `processLine` after the hash and the value have been
computed: insert a fresh entry or fold the value into the existing one. -/
def observe (m : LocationMap) (hash : Nat) (nameBytes : List Nat)
    (value : Measurement) : LocationMap :=
  match m hash with
  | some oldEntry => m.update hash (oldEntry.append value)
  | none => m.update hash ⟨nameBytes, hash, value, value, value, 1⟩

/-- Go `func processLine(line []byte, m LocationMap)`: returns the
updated map; `some m` with `m` unchanged models the reported
early-return when no `;` is found, `none` models the out-of-bounds
failure inside `parseMeasurement`. -/
def processLine (line : List Nat) (m : LocationMap) : Option LocationMap :=
  match cutSemi line with
  | none => some m
  | some (nameBytes, valueBytes) =>
    let hash := calculateHash nameBytes
    match parseMeasurement valueBytes with
    | none => none
    | some value => some (observe m hash nameBytes value)

/-- The `fmt.Printf("Separator not found in line %s\n", line)` branch of
`processLine`: `true` exactly when the rejection is reported. -/
def separatorMissingReported (line : List Nat) : Bool :=
  (cutSemi line).isNone

/-- The byte-scanning loop of Go `seekToLineStart`: index of the first
`\n` in the list, `none` if there is none. -/
def findNl : List Nat → Option Nat
  | [] => none
  | b :: rest => if b = 10 then some 0 else (findNl rest).map (· + 1)

/-- Go `func seekToLineStart(readFile *os.File, byteOffset int64) (int64, error)`.
For `byteOffset = 0` it returns `0` at once.  Otherwise the Go code
seeks to `byteOffset - 1` and reads forward (128-byte reads, at most
1024 bytes in total, stopping early at end of file) looking for the
first `\n`; finding it at file position `byteOffset - 1 + i` it seeks
to the byte right after it and returns the discarded byte count
`(byteOffset - 1 + i + 1) - byteOffset = i`.  Exhausting the 1024-byte
window returns the error `"No newline found!"`; hitting end of file
first makes `Read` fail, which the Go code also returns as an error —
both are collapsed onto the error case of the model. -/
def seekToLineStart (file : List Nat) (byteOffset : Nat) : Except String Nat :=
  if byteOffset = 0 then .ok 0
  else
    match findNl ((file.drop (byteOffset - 1)).take 1024) with
    | some i => .ok i
    | none => .error "No newline found!"

/-- `dropCR` from Go `bufio.ScanLines`: strips one trailing `\r`. -/
def dropCR (l : List Nat) : List Nat :=
  if l.getLast? = some 13 then l.dropLast else l

/-- Split a byte list at every `\n`, keeping empty pieces (helper for
the `bufio.ScanLines` model).  Never returns `[]`. -/
def splitOnNl : List Nat → List (List Nat)
  | [] => [[]]
  | 10 :: rest => [] :: splitOnNl rest
  | b :: rest =>
    match splitOnNl rest with
    | t :: ts => (b :: t) :: ts
    | [] => [[b]]

/-- The token stream a Go `bufio.Scanner` with `bufio.ScanLines`
produces from the given bytes: one token per line, terminators
stripped, a final unterminated line included, no token for the empty
tail after a final `\n`, and a trailing `\r` removed from each token. -/
def scanLines (bs : List Nat) : List (List Nat) :=
  if bs = [] then []
  else (if bs.getLast? = some 10 then (splitOnNl bs).dropLast else splitOnNl bs).map dropCR

/-- The scan loop of Go `processFilePart`:
`for fileScanner.Scan() && bytesScanned < byteLength { line := fileScanner.Bytes();
bytesScanned += int64(len(line)); processLine(line, m) }`.
Note that the Go code adds only `len(line)` — the `\n` terminators are
never counted in `bytesScanned`. -/
def processTokens (byteLength : Nat) :
    List (List Nat) → Nat → LocationMap → Option LocationMap
  | [], _, m => some m
  | t :: ts, bytesScanned, m =>
    if bytesScanned < byteLength then
      match processLine t m with
      | none => none
      | some m1 => processTokens byteLength ts (bytesScanned + t.length) m1
    else some m

/-- Go `func processFilePart(filename string, byteOffset, byteLength int64, co chan<- LocationMap)`
for an already-opened file given as its byte content.  `none` models a
worker that returns early on a seek error (never sending a table on its
channel) or fails inside `processLine`. -/
def processFilePart (file : List Nat) (byteOffset byteLength : Nat) :
    Option LocationMap :=
  let aligned : Except String Nat :=
    if byteOffset > 0 then seekToLineStart file byteOffset else .ok 0
  match aligned with
  | .error _ => none
  | .ok bytesDiscarded =>
    processTokens byteLength (scanLines (file.drop (byteOffset + bytesDiscarded)))
      bytesDiscarded emptyLocationMap

/-- The byte ranges Go `parseFile` assigns to its workers:
`blockSize := fileSize / int64(nWorkerThreads)` and worker `i` is
started as `processFilePart(filename, int64(i)*blockSize, blockSize, res)` —
every range, the last one included, has width exactly `blockSize`. -/
def nominalRanges (fileSize nWorkerThreads : Nat) : List (Nat × Nat) :=
  (List.range nWorkerThreads).map
    (fun i => (i * (fileSize / nWorkerThreads), fileSize / nWorkerThreads))

/-- Membership of a byte offset in one of the nominal ranges. -/
def coveredBy (ranges : List (Nat × Nat)) (b : Nat) : Bool :=
  ranges.any (fun r => r.1 ≤ b ∧ b < r.1 + r.2)

/-- Modelled from the claim's words, for comparison with the code only:
"the alignment step positions the read pointer at the first byte
strictly after the next line terminator located at or after start, and
returns the number of bytes thereby discarded"; for a terminator found
at position `start + i` the pointer goes to `start + i + 1` and the
discarded count is `i + 1`. -/
def seekToLineStartClaimed (file : List Nat) (start : Nat) : Option Nat :=
  if start = 0 then some 0
  else
    match findNl (file.drop start) with
    | some i => some (i + 1)
    | none => none

/-- Models Go `fmt.Sprintf("%.1f", q)` for a value that is exactly a
multiple of 1/10 (every value `Measurement.toFloat` produces is): sign,
integer part, `.`, and the single tenths digit; no rounding is needed
because the argument is exact. -/
def fmtFixed1 (q : ℚ) : String :=
  (if ⌊q * 10⌋ < 0 then "-" else "") ++
    toString ((⌊q * 10⌋ : Int).natAbs / 10) ++ "." ++
    toString ((⌊q * 10⌋ : Int).natAbs % 10)

/-- The mathematical value of a digit-byte string (spec side of the
numeric-parsing claim): digits interpreted in base 10. -/
def digitsVal (ds : List Nat) : Int :=
  ds.foldl (fun v (b : Nat) => v * 10 + ((b : Int) - 48)) 0

/-- The bytes of `"A;1.0\nB;2.0\nC;3.0\nD;4.0\n"`: a four-line input used
to exercise the range-scanner accounting at a range boundary. -/
def file2 : List Nat :=
  [65, 59, 49, 46, 48, 10, 66, 59, 50, 46, 48, 10,
   67, 59, 51, 46, 48, 10, 68, 59, 52, 46, 48, 10]

/-- The bytes of `"ab\ncd\n"`, used at alignment offset 3 (whose
predecessor byte is the `\n` at offset 2). -/
def ex7File : List Nat := [97, 98, 10, 99, 100, 10]

/-- Eight `a` bytes and no newline at all: a window with no line
terminator. -/
def ex9File : List Nat := [97, 97, 97, 97, 97, 97, 97, 97]

/-- First preimage of a 64-bit collision of `calculateHash`: the ASCII
bytes of `"7fc85871ceeca543"`. -/
def cName1 : List Nat :=
  [55, 102, 99, 56, 53, 56, 55, 49, 99, 101, 101, 99, 97, 53, 52, 51]

/-- Second preimage of the same hash value: the ASCII bytes of
`"f14d5c4d6e138cf5"`.  `calculateHash cName1 = calculateHash cName2`
even though the names differ. -/
def cName2 : List Nat :=
  [102, 49, 52, 100, 53, 99, 52, 100, 54, 101, 49, 51, 56, 99, 102, 53]

/-- The table obtained by processing the line `7fc85871ceeca543;1.0`
into an empty map. -/
def ct1 : LocationMap :=
  emptyLocationMap.update (calculateHash cName1)
    ⟨cName1, calculateHash cName1, 10, 10, 10, 1⟩

/-- The table obtained by processing the line `f14d5c4d6e138cf5;2.0`
into an empty map. -/
def ct2 : LocationMap :=
  emptyLocationMap.update (calculateHash cName2)
    ⟨cName2, calculateHash cName2, 20, 20, 20, 1⟩

/-- The bytes of the valid line `A;500000000000000000.0`: one
observation of 5·10^18 tenths, which the program parses wrap-free. -/
def bigLine : List Nat :=
  [65, 59, 53, 48, 48, 48, 48, 48, 48, 48, 48, 48,
   48, 48, 48, 48, 48, 48, 48, 48, 46, 48]

/-- The bytes of `9999999999999999999.9`: a well-formed value of the
form `-?\d+\.\d` whose exact tenths, 10^20 - 1, exceed int64 range. -/
def overflowBytes : List Nat := List.replicate 19 57 ++ [46, 57]

/-! ### Helper lemmas -/

theorem wrap64_mod (x : Int) : wrap64 x % 2 ^ 64 = x % 2 ^ 64 := by
  unfold wrap64
  omega

theorem wrap64_range (x : Int) : -(2 ^ 63) ≤ wrap64 x ∧ wrap64 x < 2 ^ 63 := by
  unfold wrap64
  omega

theorem wrap64_eq_self (x : Int) (h1 : -(2 ^ 63) ≤ x) (h2 : x < 2 ^ 63) :
    wrap64 x = x := by
  unfold wrap64
  omega

theorem wrap64_congr (x y : Int) (h : x % 2 ^ 64 = y % 2 ^ 64) :
    wrap64 x = wrap64 y := by
  unfold wrap64
  omega

theorem sum_wrap_fold_mod (vs : List Int) (a : Int) :
    (vs.foldl (fun s w => wrap64 (s + w)) a) % 2 ^ 64 = (a + vs.sum) % 2 ^ 64 := by
  induction vs generalizing a with
  | nil => simp
  | cons w ws ih =>
    simp only [List.foldl_cons, List.sum_cons]
    have h1 := ih (wrap64 (a + w))
    have h2 := wrap64_mod (a + w)
    omega

theorem sum_wrap_fold_range (vs : List Int) (a : Int)
    (ha : -(2 ^ 63) ≤ a ∧ a < 2 ^ 63) :
    -(2 ^ 63) ≤ vs.foldl (fun s w => wrap64 (s + w)) a ∧
      vs.foldl (fun s w => wrap64 (s + w)) a < 2 ^ 63 := by
  induction vs generalizing a with
  | nil => simpa using ha
  | cons w ws ih =>
    simp only [List.foldl_cons]
    exact ih (wrap64 (a + w)) (wrap64_range (a + w))

theorem sum_wrap_fold_exact (vs : List Int) (a : Int)
    (ha : -(2 ^ 63) ≤ a ∧ a < 2 ^ 63)
    (h1 : -(2 ^ 63) ≤ a + vs.sum) (h2 : a + vs.sum < 2 ^ 63) :
    vs.foldl (fun s w => wrap64 (s + w)) a = a + vs.sum := by
  have hm := sum_wrap_fold_mod vs a
  have hr := sum_wrap_fold_range vs a ha
  omega

theorem cutSemi_eq_none (line : List Nat) (h : 59 ∉ line) : cutSemi line = none := by
  induction line with
  | nil => rfl
  | cons b rest ih =>
    have hb : b ≠ 59 := fun hbe => h (hbe ▸ List.mem_cons_self b rest)
    simp [cutSemi, hb, ih (fun hc => h (List.mem_cons_of_mem b hc))]

theorem cutSemi_append (n v : List Nat) (h : 59 ∉ n) :
    cutSemi (n ++ 59 :: v) = some (n, v) := by
  induction n with
  | nil => simp [cutSemi]
  | cons b rest ih =>
    have hb : b ≠ 59 := fun hbe => h (hbe ▸ List.mem_cons_self b rest)
    simp [cutSemi, hb, ih (fun hc => h (List.mem_cons_of_mem b hc))]

theorem update_lookup (m : LocationMap) (k : Nat) (loc : Location) :
    (m.update k loc) k = some loc := by
  unfold LocationMap.update
  simp

theorem findNl_eq_none (l : List Nat) (h : ∀ b ∈ l, b ≠ 10) : findNl l = none := by
  induction l with
  | nil => rfl
  | cons b rest ih =>
    have hb : b ≠ 10 := h b (List.mem_cons_self b rest)
    simp [findNl, hb, ih (fun c hc => h c (List.mem_cons_of_mem b hc))]

theorem findNl_eq_some (l : List Nat) (i : Nat)
    (hi : l.get? i = some 10)
    (hmin : ∀ j, j < i → l.get? j ≠ some 10) :
    findNl l = some i := by
  induction l generalizing i with
  | nil => simp at hi
  | cons b rest ih =>
    cases i with
    | zero =>
      simp only [List.get?] at hi
      cases hi
      simp [findNl]
    | succ i =>
      have hb : b ≠ 10 := fun h => hmin 0 (Nat.succ_pos i) (by simp [List.get?, h])
      rw [findNl, if_neg hb,
        ih i hi (fun j hj hc => hmin (j + 1) (Nat.succ_lt_succ hj) hc)]
      rfl

/-! ### Claim theorems -/

/-- C8: a line with no `;` byte is rejected and reported without
aborting the run, and the rejection leaves the aggregate table
completely unchanged. -/
theorem processLine_no_separator (line : List Nat) (m : LocationMap)
    (h : 59 ∉ line) :
    processLine line m = some m ∧ separatorMissingReported line = true := by
  have hc := cutSemi_eq_none line h
  constructor
  · unfold processLine
    rw [hc]
  · unfold separatorMissingReported
    rw [hc]
    rfl

theorem processLine_no_separator_witness :
    processLine [97, 98] emptyLocationMap = some emptyLocationMap ∧
      separatorMissingReported [97, 98] = true :=
  processLine_no_separator [97, 98] emptyLocationMap (by decide)

/-- C9: when no line terminator occurs in the bounded 1024-byte
lookahead window that `seekToLineStart` scans (the window starting at
`start - 1`, truncated at end of file), the alignment step returns an
explicit error and the range scanner produces no aggregate table at
all. -/
theorem seekToLineStart_window_error (file : List Nat) (start len : Nat)
    (h0 : 0 < start)
    (hw : ∀ b ∈ (file.drop (start - 1)).take 1024, b ≠ 10) :
    seekToLineStart file start = .error "No newline found!" ∧
      processFilePart file start len = none := by
  have hfind : findNl ((file.drop (start - 1)).take 1024) = none :=
    findNl_eq_none _ hw
  have hseek : seekToLineStart file start = .error "No newline found!" := by
    unfold seekToLineStart
    rw [if_neg (by omega), hfind]
  refine ⟨hseek, ?_⟩
  unfold processFilePart
  rw [if_pos h0, hseek]

theorem seekToLineStart_window_error_witness :
    seekToLineStart ex9File 4 = .error "No newline found!" ∧
      processFilePart ex9File 4 4 = none :=
  seekToLineStart_window_error ex9File 4 4 (by decide) (by decide)

/-- C10: `parseMeasurement` reads `byteStr[0]` unconditionally, so the
empty value byte sequence makes it fail out of bounds, and a line whose
value part is empty (`"Name;"`) drives `processLine` into that
out-of-bounds failure instead of a rejection. -/
theorem parseMeasurement_empty_oob (m : LocationMap) :
    parseMeasurement [] = none ∧
      processLine [78, 97, 109, 101, 59] m = none :=
  ⟨rfl, rfl⟩

/-- C2 (code bug): on the 24-byte file `A;1.0\nB;2.0\nC;3.0\nD;4.0\n`
split into two nominal ranges of 12 bytes, the record `C;3.0` — whose
line start, offset 12, lies in the second range — is processed by both
range scanners: `bytesScanned` never counts the `\n` terminators, so
the first scanner runs one line past its range for every line it reads.
Both workers' tables carry station `C` with count 1, so the record is
counted twice instead of exactly once. -/
theorem range_boundary_double_count :
    (processFilePart file2 0 12).bind (fun m => m (calculateHash [67])) =
        some ⟨[67], calculateHash [67], 30, 30, 30, 1⟩ ∧
      (processFilePart file2 12 12).bind (fun m => m (calculateHash [67])) =
        some ⟨[67], calculateHash [67], 30, 30, 30, 1⟩ :=
  ⟨by decide, by decide⟩

/-- C3 (counterexample): for fileSize 10 and 3 workers the partitioner
emits three ranges of width `10 / 3 = 3`; the final range is `(6, 3)` —
it does not absorb the remainder — and offset 9 of the file is covered
by no range, so the ranges do not cover `[0, 10)`. -/
theorem nominalRanges_remainder_cex :
    nominalRanges 10 3 = [(0, 3), (3, 3), (6, 3)] ∧
      coveredBy (nominalRanges 10 3) 9 = false :=
  ⟨by decide, by decide⟩

/-- C3 (amended): for every `S` and `N` with `1 ≤ N ≤ S` the partitioner
produces `N` contiguous ranges, every one (the final one included) of
nominal width `S / N`, and the nominal ranges tile `[0, N * (S / N))`
exactly once — the trailing `S mod N` bytes lie in no range. -/
theorem nominalRanges_tile (S N : Nat) (h1 : 1 ≤ N) (h2 : N ≤ S) :
    (nominalRanges S N).length = N ∧
      (∀ r ∈ nominalRanges S N, r.2 = S / N) ∧
      (∀ b : Nat, coveredBy (nominalRanges S N) b = true ↔ b < N * (S / N)) ∧
      List.Pairwise (fun r s => r.1 + r.2 ≤ s.1) (nominalRanges S N) := by
  have hB : 0 < S / N := Nat.div_pos h2 (by omega)
  refine ⟨by simp [nominalRanges], ?_, ?_, ?_⟩
  · intro r hr
    simp only [nominalRanges, List.mem_map, List.mem_range] at hr
    obtain ⟨i, _, rfl⟩ := hr
    rfl
  · intro b
    constructor
    · intro h
      simp only [coveredBy, List.any_eq_true, decide_eq_true_eq] at h
      obtain ⟨r, hr, hle, hlt⟩ := h
      simp only [nominalRanges, List.mem_map, List.mem_range] at hr
      obtain ⟨i, hi, rfl⟩ := hr
      have hlt2 : b < i * (S / N) + S / N := hlt
      calc b < i * (S / N) + S / N := hlt2
        _ = (i + 1) * (S / N) := by ring
        _ ≤ N * (S / N) := Nat.mul_le_mul_right _ hi
    · intro hb
      simp only [coveredBy, List.any_eq_true, decide_eq_true_eq]
      refine ⟨(b / (S / N) * (S / N), S / N), ?_, ?_, ?_⟩
      · simp only [nominalRanges, List.mem_map, List.mem_range]
        exact ⟨b / (S / N), (Nat.div_lt_iff_lt_mul hB).mpr hb, rfl⟩
      · exact Nat.div_mul_le_self b _
      · have hdm := Nat.div_add_mod' b (S / N)
        have hmlt := Nat.mod_lt b hB
        show b < b / (S / N) * (S / N) + S / N
        omega
  · simp only [nominalRanges, List.pairwise_map]
    refine (List.pairwise_lt_range N).imp ?_
    intro i j hij
    show i * (S / N) + S / N ≤ j * (S / N)
    calc i * (S / N) + S / N = (i + 1) * (S / N) := by ring
      _ ≤ j * (S / N) := Nat.mul_le_mul_right _ hij

theorem nominalRanges_tile_witness :
    (nominalRanges 10 3).length = 3 ∧
      (coveredBy (nominalRanges 10 3) 8 = true ↔ 8 < 3 * (10 / 3)) :=
  ⟨(nominalRanges_tile 10 3 (by decide) (by decide)).1,
   (nominalRanges_tile 10 3 (by decide) (by decide)).2.2.1 8⟩

/-- C7 (counterexample): for the file `ab\ncd\n` and range start 3, the
byte before the start is the `\n` at offset 2, so the code keeps the
pointer at offset 3 and discards 0 bytes; the claim's rule — first byte
strictly after the next terminator located at or after start 3, i.e.
after the `\n` at offset 5 — would discard 3 bytes and move to offset 6.
The code does not return the claimed count. -/
theorem seekToLineStart_claim_cex :
    seekToLineStart ex7File 3 = .ok 0 ∧
      seekToLineStartClaimed ex7File 3 = some 3 ∧
      (0 : Nat) ≠ 3 :=
  ⟨rfl, rfl, by decide⟩

/-- C7 (amended): for a range start `start > 0`, `seekToLineStart`
positions the read pointer at the first byte strictly after the next
line terminator located at or after `start - 1` (not `start`): if `q`
is the earliest newline position with `start - 1 ≤ q` inside the
1024-byte lookahead window, the returned discarded-byte count is
`q + 1 - start`, putting the pointer at `q + 1`; and for `start = 0` no
adjustment is performed. -/
theorem seekToLineStart_aligns (file : List Nat) (start q : Nat)
    (h0 : 0 < start) (hq1 : start - 1 ≤ q) (hq2 : q < start - 1 + 1024)
    (hq3 : file.get? q = some 10)
    (hmin : ∀ r, start - 1 ≤ r → r < q → file.get? r ≠ some 10) :
    seekToLineStart file start = .ok (q + 1 - start) ∧
      seekToLineStart file 0 = .ok 0 := by
  constructor
  · have hwin : ((file.drop (start - 1)).take 1024).get? (q - (start - 1)) = some 10 := by
      rw [List.get?_take (by omega), List.get?_drop]
      rwa [Nat.add_sub_cancel' hq1]
    have hwmin : ∀ j, j < q - (start - 1) →
        ((file.drop (start - 1)).take 1024).get? j ≠ some 10 := by
      intro j hj
      rw [List.get?_take (by omega), List.get?_drop]
      exact hmin _ (Nat.le_add_right _ _) (by omega)
    unfold seekToLineStart
    rw [if_neg (by omega), findNl_eq_some _ _ hwin hwmin]
    have he : q - (start - 1) = q + 1 - start := by omega
    rw [he]
  · rfl

theorem seekToLineStart_aligns_witness :
    seekToLineStart ex7File 3 = .ok (2 + 1 - 3) ∧
      seekToLineStart ex7File 0 = .ok 0 :=
  seekToLineStart_aligns ex7File 3 2 (by decide) (by decide) (by decide) (by decide)
    (fun r h1 h2 => absurd (Nat.lt_of_le_of_lt h1 h2) (Nat.lt_irrefl 2))

/-! ### Fold lemmas for the aggregate-update rule -/

theorem mmin_le_left (a b : Measurement) : mmin a b ≤ a := by
  unfold mmin
  split
  · exact le_refl a
  · next h => exact not_lt.mp h

theorem mmin_le_right (a b : Measurement) : mmin a b ≤ b := by
  unfold mmin
  split
  · next h => exact le_of_lt h
  · exact le_refl b

theorem mmin_eq_or (a b : Measurement) : mmin a b = a ∨ mmin a b = b := by
  unfold mmin
  split <;> simp

theorem mmax_le_left (a b : Measurement) : a ≤ mmax a b := by
  unfold mmax
  split
  · next h => exact le_of_lt h
  · exact le_refl a

theorem mmax_le_right (a b : Measurement) : b ≤ mmax a b := by
  unfold mmax
  split
  · exact le_refl b
  · next h => exact not_lt.mp h

theorem mmax_eq_or (a b : Measurement) : mmax a b = a ∨ mmax a b = b := by
  unfold mmax
  split <;> simp

theorem mmin_eq_min (a b : Measurement) : mmin a b = min a b := by
  unfold mmin
  rw [min_def]
  split_ifs with h1 h2 h3
  · rfl
  · exact absurd (le_of_lt h1) h2
  · exact (le_antisymm h3 (not_lt.mp h1)).symm
  · rfl

theorem mmax_eq_max (a b : Measurement) : mmax a b = max a b := by
  unfold mmax
  rw [max_def]
  split_ifs with h1 h2 h3
  · rfl
  · exact absurd (le_of_lt h1) h2
  · exact (le_antisymm (not_lt.mp h1) h3).symm
  · rfl

theorem mmin_assoc (a b c : Measurement) : mmin (mmin a b) c = mmin a (mmin b c) := by
  simp only [mmin_eq_min]
  exact min_assoc a b c

theorem mmin_comm (a b : Measurement) : mmin a b = mmin b a := by
  simp only [mmin_eq_min]
  exact min_comm a b

theorem mmax_assoc (a b c : Measurement) : mmax (mmax a b) c = mmax a (mmax b c) := by
  simp only [mmax_eq_max]
  exact max_assoc a b c

theorem mmax_comm (a b : Measurement) : mmax a b = mmax b a := by
  simp only [mmax_eq_max]
  exact max_comm a b

theorem foldl_mmin_mem (vs : List Measurement) (a : Measurement) :
    vs.foldl mmin a ∈ a :: vs := by
  induction vs generalizing a with
  | nil => simp
  | cons w ws ih =>
    simp only [List.foldl_cons]
    rcases List.mem_cons.mp (ih (mmin a w)) with h | h
    · rw [h]
      rcases mmin_eq_or a w with h3 | h3 <;> rw [h3] <;> simp
    · simp [h]

theorem foldl_mmin_le_init (vs : List Measurement) (a : Measurement) :
    vs.foldl mmin a ≤ a := by
  induction vs generalizing a with
  | nil => simp
  | cons w ws ih =>
    simp only [List.foldl_cons]
    exact le_trans (ih (mmin a w)) (mmin_le_left a w)

theorem foldl_mmin_le (vs : List Measurement) (a x : Measurement)
    (hx : x ∈ a :: vs) : vs.foldl mmin a ≤ x := by
  induction vs generalizing a with
  | nil =>
    simp only [List.mem_cons, List.not_mem_nil, or_false] at hx
    simp [hx]
  | cons w ws ih =>
    simp only [List.foldl_cons]
    rcases List.mem_cons.mp hx with h | h
    · rw [h]
      exact le_trans (foldl_mmin_le_init ws (mmin a w)) (mmin_le_left a w)
    · rcases List.mem_cons.mp h with h2 | h2
      · rw [h2]
        exact le_trans (foldl_mmin_le_init ws (mmin a w)) (mmin_le_right a w)
      · exact ih (mmin a w) (List.mem_cons_of_mem _ h2)

theorem foldl_mmax_mem (vs : List Measurement) (a : Measurement) :
    vs.foldl mmax a ∈ a :: vs := by
  induction vs generalizing a with
  | nil => simp
  | cons w ws ih =>
    simp only [List.foldl_cons]
    rcases List.mem_cons.mp (ih (mmax a w)) with h | h
    · rw [h]
      rcases mmax_eq_or a w with h3 | h3 <;> rw [h3] <;> simp
    · simp [h]

theorem foldl_mmax_le_init (vs : List Measurement) (a : Measurement) :
    a ≤ vs.foldl mmax a := by
  induction vs generalizing a with
  | nil => simp
  | cons w ws ih =>
    simp only [List.foldl_cons]
    exact le_trans (mmax_le_left a w) (ih (mmax a w))

theorem foldl_mmax_le (vs : List Measurement) (a x : Measurement)
    (hx : x ∈ a :: vs) : x ≤ vs.foldl mmax a := by
  induction vs generalizing a with
  | nil =>
    simp only [List.mem_cons, List.not_mem_nil, or_false] at hx
    simp [hx]
  | cons w ws ih =>
    simp only [List.foldl_cons]
    rcases List.mem_cons.mp hx with h | h
    · rw [h]
      exact le_trans (mmax_le_left a w) (foldl_mmax_le_init ws (mmax a w))
    · rcases List.mem_cons.mp h with h2 | h2
      · rw [h2]
        exact le_trans (mmax_le_right a w) (foldl_mmax_le_init ws (mmax a w))
      · exact ih (mmax a w) (List.mem_cons_of_mem _ h2)

theorem foldl_append_fields (vs : List Measurement) (loc : Location) :
    vs.foldl Location.append loc =
      ⟨loc.name, loc.hash, vs.foldl mmin loc.min, vs.foldl mmax loc.max,
        vs.foldl (fun s w => wrap64 (s + w)) loc.sum, loc.count + vs.length⟩ := by
  induction vs generalizing loc with
  | nil => simp
  | cons w ws ih =>
    rw [List.foldl_cons, ih]
    simp only [Location.append, List.foldl_cons, List.length_cons,
      Location.mk.injEq, true_and]
    omega

theorem observe_fold_present (vs : List Measurement) (m : LocationMap)
    (hash : Nat) (name : List Nat) (loc : Location) (h : m hash = some loc) :
    (vs.foldl (fun t w => observe t hash name w) m) hash =
      some (vs.foldl Location.append loc) := by
  induction vs generalizing m loc with
  | nil => simpa using h
  | cons w ws ih =>
    simp only [List.foldl_cons]
    refine ih (observe m hash name w) (loc.append w) ?_
    unfold observe
    rw [h]
    exact update_lookup m hash (loc.append w)

set_option maxRecDepth 8000 in
/-- C5 (counterexample): two observations of 5·10^18 tenths — each
parsed wrap-free by the program from the valid line
`A;500000000000000000.0` — drive the int64 running sum past 2^63: the
stored sum is -8446744073709551616, not the exact 10^19, so the claim's
`sum = v1 + ... + vn exactly` fails on the code. -/
theorem observe_sum_wraps :
    ((processLine bigLine emptyLocationMap).bind (processLine bigLine)).bind
        (fun m => m (calculateHash [65])) =
      some ⟨[65], calculateHash [65], 5000000000000000000, 5000000000000000000,
        -8446744073709551616, 2⟩ ∧
      (-8446744073709551616 : Int) ≠ 5000000000000000000 + 5000000000000000000 :=
  ⟨by decide, by decide⟩

/-- C5 (amended): folding a non-empty sequence of int64 measurement
values (each in `[-2^63, 2^63)`, fewer than `2^63` of them so the Go
`int` counter does not wrap) for one station via the observe/update
rule of `processLine` (absent key: insert `{v, v, v, 1}`; present key:
`Location.append`) yields exactly the minimum, the maximum and the
length of the sequence, while the stored sum is the int64-wrapped sum
of the values: it is congruent to `v1 + ... + vn` modulo `2^64`, and
equals it exactly whenever that true sum fits in int64 (`sum += value`
is a wrapping int64 addition — see the counterexample otherwise). -/
theorem observe_roundtrip (m : LocationMap) (hash : Nat) (name : List Nat)
    (v : Measurement) (vs : List Measurement) (h : m hash = none)
    (hin : ∀ x ∈ v :: vs, -(2 ^ 63) ≤ x ∧ x < 2 ^ 63)
    (hn : (v :: vs).length < 2 ^ 63) :
    ((v :: vs).foldl (fun t w => observe t hash name w) m) hash =
        some ⟨name, hash, vs.foldl mmin v, vs.foldl mmax v,
          vs.foldl (fun s w => wrap64 (s + w)) v, (v :: vs).length⟩ ∧
      vs.foldl mmin v ∈ v :: vs ∧ (∀ x ∈ v :: vs, vs.foldl mmin v ≤ x) ∧
      vs.foldl mmax v ∈ v :: vs ∧ (∀ x ∈ v :: vs, x ≤ vs.foldl mmax v) ∧
      (vs.foldl (fun s w => wrap64 (s + w)) v) % 2 ^ 64 = (v :: vs).sum % 2 ^ 64 ∧
      (-(2 ^ 63) ≤ (v :: vs).sum → (v :: vs).sum < 2 ^ 63 →
        vs.foldl (fun s w => wrap64 (s + w)) v = (v :: vs).sum) := by
  refine ⟨?_, foldl_mmin_mem vs v, fun x hx => foldl_mmin_le vs v x hx,
    foldl_mmax_mem vs v, fun x hx => foldl_mmax_le vs v x hx, ?_, ?_⟩
  · simp only [List.foldl_cons]
    have h0 : (observe m hash name v) hash = some ⟨name, hash, v, v, v, 1⟩ := by
      unfold observe
      rw [h]
      exact update_lookup m hash _
    rw [observe_fold_present vs _ hash name _ h0, foldl_append_fields]
    simp only [List.length_cons, Option.some.injEq, Location.mk.injEq, true_and]
    omega
  · have hm := sum_wrap_fold_mod vs v
    simpa [List.sum_cons] using hm
  · intro hs1 hs2
    have hv := hin v (List.mem_cons_self v vs)
    have he := sum_wrap_fold_exact vs v hv
      (by simpa [List.sum_cons] using hs1) (by simpa [List.sum_cons] using hs2)
    simpa [List.sum_cons] using he

theorem observe_roundtrip_witness :
    (([10, 20, 5] : List Measurement).foldl
        (fun t w => observe t (calculateHash [65]) [65] w) emptyLocationMap)
        (calculateHash [65]) =
      some ⟨[65], calculateHash [65], ([20, 5] : List Measurement).foldl mmin 10,
        ([20, 5] : List Measurement).foldl mmax 10,
        ([20, 5] : List Measurement).foldl (fun s w => wrap64 (s + w)) 10,
        ([10, 20, 5] : List Measurement).length⟩ :=
  (observe_roundtrip emptyLocationMap (calculateHash [65]) [65] 10 [20, 5] rfl
    (by decide) (by decide)).1

/-! ### Digit-scan lemmas for the numeric parser -/

theorem parse_foldl_digits_mod (ds : List Nat) (a b : Int)
    (hab : a % 2 ^ 64 = b % 2 ^ 64)
    (hd : ∀ c ∈ ds, 48 ≤ c ∧ c ≤ 57) :
    (ds.foldl (fun v (c : Nat) =>
        if 48 ≤ c ∧ c ≤ 57 then wrap64 (v * 10 + ((c : Int) - 48)) else v) a) % 2 ^ 64 =
      (ds.foldl (fun v (c : Nat) => v * 10 + ((c : Int) - 48)) b) % 2 ^ 64 := by
  induction ds generalizing a b with
  | nil => exact hab
  | cons c rest ih =>
    simp only [List.foldl_cons]
    rw [if_pos (hd c (List.mem_cons_self c rest))]
    refine ih _ _ ?_ (fun e he => hd e (List.mem_cons_of_mem c he))
    have hw := wrap64_mod (a * 10 + ((c : Int) - 48))
    omega

theorem foldl_digits_then_frac_mod (intDigits : List Nat) (d : Nat) (a b : Int)
    (hab : a % 2 ^ 64 = b % 2 ^ 64)
    (hd : ∀ c ∈ intDigits, 48 ≤ c ∧ c ≤ 57) (hdd : 48 ≤ d ∧ d ≤ 57) :
    ((intDigits ++ [46, d]).foldl
        (fun v (c : Nat) =>
          if 48 ≤ c ∧ c ≤ 57 then wrap64 (v * 10 + ((c : Int) - 48)) else v) a) % 2 ^ 64 =
      ((intDigits.foldl (fun v (c : Nat) => v * 10 + ((c : Int) - 48)) b) * 10 +
        ((d : Int) - 48)) % 2 ^ 64 := by
  rw [List.foldl_append]
  simp only [List.foldl_cons, List.foldl_nil]
  rw [if_pos hdd, if_neg (show ¬(48 ≤ 46 ∧ 46 ≤ 57) by omega)]
  rw [wrap64_mod]
  have h1 := parse_foldl_digits_mod intDigits a b hab hd
  omega

theorem parse_wrap_exact (mult Fw P : Int)
    (hm : mult = 1 ∨ mult = -1)
    (hmod : Fw % 2 ^ 64 = P % 2 ^ 64)
    (hr1 : -(2 ^ 63) ≤ mult * P) (hr2 : mult * P < 2 ^ 63) :
    wrap64 (mult * Fw) = mult * P := by
  rcases hm with rfl | rfl
  · rw [wrap64_congr (1 * Fw) (1 * P) (by omega)]
    exact wrap64_eq_self _ hr1 hr2
  · rw [wrap64_congr (-1 * Fw) (-1 * P) (by omega)]
    exact wrap64_eq_self _ hr1 hr2

set_option maxRecDepth 8000 in
/-- C6 (counterexample): the well-formed input `9999999999999999999.9`
has exact tenths 10^20 - 1 = 99999999999999999999, but the int64
accumulator wraps and the parser returns 7766279631452241919 — the
claim's exactness over every `-?\d+\.\d` sequence fails on the code. -/
theorem parseMeasurement_overflow_cex :
    parseMeasurement overflowBytes = some 7766279631452241919 ∧
      10 * digitsVal (List.replicate 19 57) + ((57 : Int) - 48) =
        99999999999999999999 ∧
      (7766279631452241919 : Int) ≠ 99999999999999999999 :=
  ⟨by decide, by decide, by decide⟩

/-- C6 (amended): on every well-formed byte sequence `-?\d+\.\d` whose
signed tenths value fits in int64, the parser returns exactly that
value — the signed integer number of tenths of the decimal value —
using integer accumulation only; on well-formed inputs beyond int64
range the accumulator wraps (see the counterexample).  The concrete
instances hold: `"-3.2"` parses to `-32`, `"0.0"` to `0`, and
formatting the Measurement `125` yields `"12.5"`. -/
theorem parseMeasurement_exact (sign intDigits : List Nat) (d : Nat)
    (hs : sign = [] ∨ sign = [45]) (hne : intDigits ≠ [])
    (hd : ∀ b ∈ intDigits, 48 ≤ b ∧ b ≤ 57) (hdd : 48 ≤ d ∧ d ≤ 57)
    (hfit : -(2 ^ 63) ≤ (if sign = [45] then -1 else 1) *
          (10 * digitsVal intDigits + ((d : Int) - 48)) ∧
        (if sign = [45] then -1 else 1) *
          (10 * digitsVal intDigits + ((d : Int) - 48)) < 2 ^ 63) :
    parseMeasurement (sign ++ intDigits ++ [46, d]) =
        some ((if sign = [45] then -1 else 1) *
          (10 * digitsVal intDigits + ((d : Int) - 48))) ∧
      parseMeasurement [45, 51, 46, 50] = some (-32) ∧
      parseMeasurement [48, 46, 48] = some 0 ∧
      fmtFixed1 (Measurement.toFloat 125) = "12.5" := by
  refine ⟨?_, by decide, by decide, ?_⟩
  · obtain ⟨b0, rest, rfl⟩ : ∃ b0 rest, intDigits = b0 :: rest := by
      cases intDigits with
      | nil => exact absurd rfl hne
      | cons x xs => exact ⟨x, xs, rfl⟩
    have hb0 := hd b0 (List.mem_cons_self b0 rest)
    have hdv : (b0 :: rest).foldl (fun v (b : Nat) => v * 10 + ((b : Int) - 48)) 0 =
        digitsVal (b0 :: rest) := rfl
    have h1 := foldl_digits_then_frac_mod (b0 :: rest) d 0 0 rfl hd hdd
    rw [hdv] at h1
    rcases hs with hs | hs <;> subst hs
    · have h0 : (if ([] : List Nat) = [45] then (-1 : Int) else 1) = 1 :=
        if_neg (by simp)
      rw [h0] at hfit
      simp only [List.nil_append, List.cons_append, parseMeasurement]
      rw [if_neg (show ¬b0 = 45 by omega)]
      rw [show b0 :: (rest ++ [46, d]) = (b0 :: rest) ++ [46, d] from rfl]
      rw [h0]
      congr 1
      rw [parse_wrap_exact 1 _ (digitsVal (b0 :: rest) * 10 + ((d : Int) - 48))
        (Or.inl rfl) h1 (by omega) (by omega)]
      ring
    · have h45 : (if ([45] : List Nat) = [45] then (-1 : Int) else 1) = -1 :=
        if_pos rfl
      rw [h45] at hfit
      simp only [List.cons_append, List.nil_append, parseMeasurement]
      rw [List.foldl_cons]
      rw [if_neg (show ¬(48 ≤ 45 ∧ 45 ≤ 57) by omega)]
      rw [show b0 :: (rest ++ [46, d]) = (b0 :: rest) ++ [46, d] from rfl]
      simp only [if_true]
      congr 1
      rw [parse_wrap_exact (-1) _ (digitsVal (b0 :: rest) * 10 + ((d : Int) - 48))
        (Or.inr rfl) h1 (by omega) (by omega)]
      ring
  · have hq : Measurement.toFloat 125 * 10 = ((125 : Int) : ℚ) := by
      unfold Measurement.toFloat
      norm_num
    unfold fmtFixed1
    rw [hq, Int.floor_intCast]
    rfl

theorem parseMeasurement_exact_witness :
    parseMeasurement ([45] ++ [51] ++ [46, 50]) =
      some ((if ([45] : List Nat) = [45] then -1 else 1) *
        (10 * digitsVal [51] + ((50 : Int) - 48))) :=
  (parseMeasurement_exact [45] [51] 50 (Or.inr rfl) (by decide) (by decide)
    (by decide) (by decide)).1

/-- C1 (counterexample): the distinct 16-byte names
`7fc85871ceeca543` and `f14d5c4d6e138cf5` have equal `calculateHash`
values, and processing one observation of each (`…;1.0` then `…;2.0`)
leaves a single entry that carries the first name with both
observations folded into it — the two stations are silently merged. -/
theorem hash_collision_stations_merged :
    cName1 ≠ cName2 ∧ calculateHash cName1 = calculateHash cName2 ∧
      ((processLine (cName1 ++ 59 :: [49, 46, 48]) emptyLocationMap).bind
        (processLine (cName2 ++ 59 :: [50, 46, 48]))).bind
        (fun m => m (calculateHash cName2)) =
      some ⟨cName1, calculateHash cName1, 10, 20, 30, 2⟩ :=
  ⟨by decide, by decide, by decide⟩

/-- C1 (amended): grouping is by `calculateHash` alone, with no
byte-comparison fallback: any two names with distinct hash values are
kept as two distinct stations — each keeps its own entry with its own
observation — while names with equal hash values are merged (see the
counterexample). -/
theorem distinct_hash_distinct_station
    (n1 n2 vb1 vb2 : List Nat) (x1 x2 : Measurement)
    (hh : calculateHash n1 ≠ calculateHash n2)
    (hs1 : 59 ∉ n1) (hs2 : 59 ∉ n2)
    (hv1 : parseMeasurement vb1 = some x1)
    (hv2 : parseMeasurement vb2 = some x2) :
    ((processLine (n1 ++ 59 :: vb1) emptyLocationMap).bind
        (processLine (n2 ++ 59 :: vb2))).bind (fun m => m (calculateHash n1)) =
        some ⟨n1, calculateHash n1, x1, x1, x1, 1⟩ ∧
      ((processLine (n1 ++ 59 :: vb1) emptyLocationMap).bind
        (processLine (n2 ++ 59 :: vb2))).bind (fun m => m (calculateHash n2)) =
        some ⟨n2, calculateHash n2, x2, x2, x2, 1⟩ := by
  have hp1 : processLine (n1 ++ 59 :: vb1) emptyLocationMap =
      some (emptyLocationMap.update (calculateHash n1)
        ⟨n1, calculateHash n1, x1, x1, x1, 1⟩) := by
    simp only [processLine, cutSemi_append n1 vb1 hs1, hv1, observe, emptyLocationMap]
  have hk2 : (emptyLocationMap.update (calculateHash n1)
      ⟨n1, calculateHash n1, x1, x1, x1, 1⟩) (calculateHash n2) = none := by
    unfold LocationMap.update emptyLocationMap
    rw [if_neg (fun h => hh h.symm)]
  have hp2 : processLine (n2 ++ 59 :: vb2)
      (emptyLocationMap.update (calculateHash n1)
        ⟨n1, calculateHash n1, x1, x1, x1, 1⟩) =
      some ((emptyLocationMap.update (calculateHash n1)
          ⟨n1, calculateHash n1, x1, x1, x1, 1⟩).update (calculateHash n2)
        ⟨n2, calculateHash n2, x2, x2, x2, 1⟩) := by
    simp only [processLine, cutSemi_append n2 vb2 hs2, hv2, observe, hk2]
  rw [hp1, Option.some_bind', hp2, Option.some_bind', Option.some_bind']
  constructor
  · unfold LocationMap.update
    rw [if_neg hh, if_pos rfl]
  · unfold LocationMap.update
    rw [if_pos rfl]

theorem distinct_hash_distinct_station_witness :
    ((processLine ([65] ++ 59 :: [49, 46, 48]) emptyLocationMap).bind
        (processLine ([66] ++ 59 :: [50, 46, 48]))).bind
        (fun m => m (calculateHash [65])) =
      some ⟨[65], calculateHash [65], 10, 10, 10, 1⟩ :=
  (distinct_hash_distinct_station [65] [66] [49, 46, 48] [50, 46, 48] 10 20
    (by decide) (by decide) (by decide) (by decide) (by decide)).1

/-- C4 (counterexample): the two singleton tables obtained from the
valid lines `7fc85871ceeca543;1.0` and `f14d5c4d6e138cf5;2.0` share
their key (the two names collide), and merging them in the two orders
yields different tables: `Location.merge` keeps the left operand's name,
so the station name stored at the shared key depends on the fold
order. -/
theorem merge_not_commutative :
    processLine (cName1 ++ 59 :: [49, 46, 48]) emptyLocationMap = some ct1 ∧
      processLine (cName2 ++ 59 :: [50, 46, 48]) emptyLocationMap = some ct2 ∧
      LocationMap.merge ct1 ct2 ≠ LocationMap.merge ct2 ct1 := by
  refine ⟨rfl, rfl, fun h => ?_⟩
  exact absurd (congrFun h (calculateHash cName1)) (by decide)

/-- C4 (amended): `LocationMap.merge` is associative, and the numeric
fields (min, max, sum, count) of every station are independent of the
merge order; full commutativity `a.merge b = b.merge a` holds under the
additional hypothesis that the two tables store the same name and hash
at every shared key (which fails only when distinct colliding names are
involved — see the counterexample). -/
theorem merge_assoc_and_comm :
    (∀ a b c : LocationMap, (a.merge b).merge c = a.merge (b.merge c)) ∧
      (∀ (a b : LocationMap) (k : Nat),
        ((a.merge b) k).map (fun l => (l.min, l.max, l.sum, l.count)) =
          ((b.merge a) k).map (fun l => (l.min, l.max, l.sum, l.count))) ∧
      (∀ a b : LocationMap,
        (∀ k la lb, a k = some la → b k = some lb →
          la.name = lb.name ∧ la.hash = lb.hash) →
        a.merge b = b.merge a) := by
  refine ⟨?_, ?_, ?_⟩
  · intro a b c
    funext k
    simp only [LocationMap.merge]
    cases ha : a k <;> cases hb : b k <;> cases hc : c k <;>
      simp [Location.merge, mmin_assoc, mmax_assoc, add_assoc]
  · intro a b k
    simp only [LocationMap.merge]
    cases ha : a k with
    | none => cases hb : b k <;> rfl
    | some la =>
      cases hb : b k with
      | none => rfl
      | some lb => simp [Location.merge, mmin_comm, mmax_comm, add_comm, Nat.add_comm]
  · intro a b hag
    funext k
    simp only [LocationMap.merge]
    cases ha : a k with
    | none => cases hb : b k <;> rfl
    | some la =>
      cases hb : b k with
      | none => rfl
      | some lb =>
        obtain ⟨hn, hhash⟩ := hag k la lb ha hb
        simp [Location.merge, hn, hhash, mmin_comm, mmax_comm, add_comm, Nat.add_comm]

theorem merge_assoc_and_comm_witness :
    (ct1.merge ct2).merge ct1 = ct1.merge (ct2.merge ct1) ∧
      ct1.merge ct1 = ct1.merge ct1 :=
  ⟨merge_assoc_and_comm.1 ct1 ct2 ct1,
   merge_assoc_and_comm.2.2 ct1 ct1 (fun k la lb ha hb => by
     rw [ha] at hb
     obtain rfl := Option.some.inj hb
     exact ⟨rfl, rfl⟩)⟩

end OneBRC
